import Mathlib

/-!
Verification development for the `sitecrawler` repository (package `crawler`
plus its CLI).  The definitions below are a shallow embedding of the Go
source: pure functions become Lean functions, the concurrent parts (the
`HasSet` dedup gate, the worker pool's spawn decision, the
WaitGroup-driven stream closing) become explicit step relations over small
state types, executed against explicit interleaving schedules.

External standard-library behaviour (`strings`, `net/url`,
`golang.org/x/net/html`) is modelled by small executable functions whose
doc comments name the library function they stand for; the tokenizer's
output is taken as the input of the extractor, matching the spec's view of
HTML tokenisation as an externally supplied capability.
-/

namespace SiteCrawler

/-- Whether `pat` occurs at the start of `s` (character lists). -/
def startsWithChars : List Char → List Char → Bool
  | [], _ => true
  | _ :: _, [] => false
  | p :: ps, c :: cs => p = c && startsWithChars ps cs

/-- Whether `pat` occurs as a contiguous sublist of `s` (character lists). -/
def hasSubChars (pat : List Char) : List Char → Bool
  | [] => startsWithChars pat []
  | c :: cs => startsWithChars pat (c :: cs) || hasSubChars pat cs

/-- Models Go `strings.Contains s pat`: true iff `pat` occurs as a
substring of `s`. -/
def strContains (s pat : String) : Bool :=
  hasSubChars pat.data s.data

/-- Models Go `strings.Split s sep` for a single-character separator (the
`","` split of `srcset` handling). -/
def splitChar (sep : Char) : List Char → List (List Char)
  | [] => [[]]
  | c :: cs =>
    match splitChar sep cs with
    | [] => [[]]
    | seg :: rest => if c = sep then [] :: seg :: rest else (c :: seg) :: rest

/-- Models Go `strings.TrimSuffix s "/"`: removes one trailing `/` if present
(source: `crawler.go` lines 93 and 170). -/
def trimSuffixSlash (s : String) : String :=
  if s.data.getLast? = some '/' then ⟨s.data.dropLast⟩ else s

/-- The path normalisation performed by `PageCrawler.Run` before the dedup
gate (`crawler.go` lines 93–96): strip one trailing slash, and map the empty
result to the root marker `"/"`. -/
def normalizePath (p : String) : String :=
  let trimmed := trimSuffixSlash p
  if trimmed = "" then "/" else trimmed

/-- Model of Go `net/url.URL` restricted to the fields the crawler reads
(`Scheme`, `Host`, `Path`). -/
structure GoURL where
  scheme : String
  host : String
  path : String
deriving DecidableEq, Repr

/-- Models `url.URL.IsAbs`: true iff the scheme is nonempty. -/
def GoURL.isAbs (u : GoURL) : Bool := u.scheme ≠ ""

/-- The directory part of a path: everything up to and including the last
`/` (used by reference resolution for relative-path merging). -/
def dirOf (p : String) : String :=
  ⟨(p.data.reverse.dropWhile (fun c => c ≠ '/')).reverse⟩

/-- Splits a character list at the first occurrence of `://`, yielding the
scheme part and the remainder. -/
def splitScheme (acc : List Char) : List Char → Option (List Char × List Char)
  | ':' :: '/' :: '/' :: rest => some (acc.reverse, rest)
  | c :: cs => splitScheme (c :: acc) cs
  | [] => none

/-- Models `net/url.Parse` on the URL shapes the crawler meets:
`scheme://host/path` absolute references and relative references.  A string
containing an ASCII control character is malformed and yields `none`
(Go's `url.Parse` rejects control characters). Dot-segment removal and the
query/fragment/userinfo components are not modelled — no claim depends on
them. -/
def parseURL (s : String) : Option GoURL :=
  if s.data.any (fun c => c.toNat < 32) then none
  else
    match splitScheme [] s.data with
    | some (sch, rest) =>
      if sch ≠ [] ∧ ¬ (sch.contains '/') then
        let hostStr := rest.takeWhile (fun c => c ≠ '/')
        some { scheme := ⟨sch⟩, host := ⟨hostStr⟩, path := ⟨rest.drop hostStr.length⟩ }
      else some { scheme := "", host := "", path := s }
    | none => some { scheme := "", host := "", path := s }

/-- Models `base.ResolveReference ref` for the reference shapes produced by
`parseURL`: an absolute reference replaces the base; a host-less relative
reference takes the base's scheme and host, with an absolute path taken
verbatim and a relative path merged onto the base path's directory. -/
def resolveReference (base ref : GoURL) : GoURL :=
  if ref.scheme ≠ "" then ref
  else if ref.host ≠ "" then { scheme := base.scheme, host := ref.host, path := ref.path }
  else if ref.path.data.head? = some '/' then { scheme := base.scheme, host := base.host, path := ref.path }
  else { scheme := base.scheme, host := base.host, path := dirOf base.path ++ ref.path }

/-- Embeds `parsePath` (`crawler.go` lines 396–407): parse the string, and
resolve it against the index URL when it is not absolute; a parse failure
propagates as `none`. -/
def parsePath (path : String) (index : GoURL) : Option GoURL :=
  match parseURL path with
  | none => none
  | some pathURI =>
    if ¬ pathURI.isAbs then some (resolveReference index pathURI)
    else some pathURI

/-- The sentinel errors and transport errors a `Status.Reason` can carry
(`crawler.go` lines 20–23; a transport error carries the client's message). -/
inductive Reason where
  | transport (e : String)
  | pageFailed
  | nonHTMLURL
deriving DecidableEq, Repr

/-- Embeds the `Status` struct (`crawler.go` lines 26–32).  `atTime` (Go field `At`) is an
abstract timestamp. -/
structure Status where
  isLive : Bool := false
  isCrawlable : Bool := false
  lastStatus : Nat := 0
  atTime : Nat := 0
  reason : Option Reason := none
deriving DecidableEq, Repr

/-- The outcome of `client.Head`: a transport error, or a response with a
status code and a `Content-Type` header value. -/
inductive HeadResult where
  | err (e : String)
  | ok (statusCode : Nat) (contentType : String)
deriving DecidableEq, Repr

/-- The content-type test used throughout the source (`crawler.go`
lines 250–251): the header value contains `text/html` or `text/xhtml`. -/
def htmlContentType (ct : String) : Bool :=
  strContains ct "text/html" || strContains ct "text/xhtml"

/-- Embeds `getURLStatus` (`crawler.go` lines 231–266), with the HEAD
request's outcome and the observation time supplied as values. -/
def getURLStatus (now : Nat) (res : HeadResult) : Status :=
  match res with
  | .err e =>
    { reason := some (.transport e), atTime := now, lastStatus := 500 }
  | .ok code ct =>
    if code < 200 ∨ code > 299 then
      { atTime := now, lastStatus := code, reason := some .pageFailed }
    else if ¬ htmlContentType ct then
      { atTime := now, isLive := true, lastStatus := code, reason := some .nonHTMLURL }
    else
      { lastStatus := code, isLive := true, atTime := now, isCrawlable := true }

/-- Embeds the recursive `LinkReport` struct (`crawler.go` lines 35–39).
Lean structures cannot be recursive, so it is an inductive with projection
functions. -/
inductive LinkReport where
  | mk (path : GoURL) (status : Status) (pointsTo : List LinkReport)

/-- The `Path` field of a `LinkReport`. -/
def LinkReport.path : LinkReport → GoURL
  | .mk p _ _ => p

/-- The `Status` field of a `LinkReport`. -/
def LinkReport.status : LinkReport → Status
  | .mk _ s _ => s

/-- The `PointsTo` field of a `LinkReport`. -/
def LinkReport.pointsTo : LinkReport → List LinkReport
  | .mk _ _ k => k

/-- The output of the `x/net/html` tokenizer, which the source consumes via
`tokenizer.Next()`/`tokenizer.Token()`: each token carries its kind and, for
tags, the attribute key/value list. -/
inductive HTMLToken where
  | errorTok
  | commentTok
  | startTag (attrs : List (String × String))
  | selfClosingTag (attrs : List (String × String))
  | otherTok
deriving DecidableEq, Repr

/-- The per-attribute harvesting of `farmWithHTML`'s inner `for`/`switch`
(`crawler.go` lines 347–376): `href` and `src` values are skipped when they
contain `javascript:void(0)` and otherwise parsed against the root; `srcset`
is split on commas and each item treated the same way; other keys are
ignored.  Attribute keys are lower-cased before the switch. -/
def farmAttrs (rootURL : GoURL) (attrs : List (String × String)) : List GoURL :=
  attrs.flatMap (fun attr =>
    match (⟨attr.1.data.map Char.toLower⟩ : String) with
    | "href" =>
      if strContains attr.2 "javascript:void(0)" then []
      else (parsePath attr.2 rootURL).toList
    | "src" =>
      if strContains attr.2 "javascript:void(0)" then []
      else (parsePath attr.2 rootURL).toList
    | "srcset" =>
      ((splitChar ',' attr.2.data).map (fun cs => (⟨cs⟩ : String))).flatMap
        (fun item =>
          if strContains item "javascript:void(0)" then []
          else (parsePath item rootURL).toList)
    | _ => [])

/-- Embeds `farmWithHTML` (`crawler.go` lines 329–381) over the token
stream.  The Go accumulator is `map[*url.URL]struct{}` — a map keyed by
*pointer*; since `url.Parse`/`ResolveReference` allocate a fresh `*url.URL`
on every call, every successfully parsed attribute occurrence is a distinct
key, so the map keeps one entry per occurrence.  The model therefore
accumulates a list with one element per parsed occurrence.  An error token
ends the scan, returning what was gathered; comment and other tokens are
skipped; start and self-closing tags are harvested. -/
def farmWithHTML (content : List HTMLToken) (rootURL : GoURL) : List GoURL :=
  match content with
  | [] => []
  | .errorTok :: _ => []
  | .commentTok :: rest => farmWithHTML rest rootURL
  | .startTag attrs :: rest => farmAttrs rootURL attrs ++ farmWithHTML rest rootURL
  | .selfClosingTag attrs :: rest => farmAttrs rootURL attrs ++ farmWithHTML rest rootURL
  | .otherTok :: rest => farmWithHTML rest rootURL

/-- Embeds `CrawlBody` (`crawler.go` lines 213–229): iterate the farmed
links, skip any link whose host differs from the target's host, and annotate
each kept link with its probed status.  The HTTP probe is supplied as a
function `probe` (the `client` of the source); `CrawlBody` never returns an
error in the source, so the model is total. -/
def CrawlBody (probe : GoURL → Status) (target : GoURL) (links : List GoURL) :
    List LinkReport :=
  (links.filter (fun link => link.host = target.host)).map
    (fun link => .mk link (probe link) [])

/-- The dispatch filter of `PageCrawler.Run`'s kid loop (`crawler.go`
lines 169–181): a kid is submitted to the worker pool unless its
slash-trimmed path is empty, it is not crawlable, or its trimmed path is
already in the seen set. -/
def dispatchKids (seen : List String) (kids : List LinkReport) : List LinkReport :=
  kids.filter (fun kid =>
    let kidPath := trimSuffixSlash kid.path.path
    ¬ (kidPath = "") ∧ kid.status.isCrawlable ∧ ¬ (kidPath ∈ seen))

/-- Embeds the body of `PageCrawler.Run` after the dedup/depth gates
(`crawler.go` lines 113–203) as a function of the run-time inputs: whether
the cancellation signal has fired at the `select`, the node's report as it
stands after step 7 of the protocol (the precomputed parent-supplied report,
or a fresh one from the probe), the body fetch's success, the `CrawlBody`
result, and the seen set read by the dispatch loop.  It returns the reports
emitted on the stream and the kid reports submitted to the pool. -/
def runNode (cancelled : Bool) (rep : LinkReport) (fetchOk : Bool)
    (kids : List LinkReport) (seen : List String) :
    List LinkReport × List LinkReport :=
  if cancelled then ([], [])
  else if ¬ rep.status.isLive then ([rep], [])
  else if rep.status.isLive ∧ ¬ rep.status.isCrawlable then ([rep], [])
  else if ¬ fetchOk then
    ([.mk rep.path { rep.status with isLive := false } rep.pointsTo], [])
  else
    ([.mk rep.path rep.status kids], dispatchKids seen kids)

/-- Embeds the `PageCrawler` struct fields that drive control flow
(`crawler.go` lines 44–60); the shared `seen`/`waiter` handles and the
precomputed report are modelled separately. -/
structure PageCrawler where
  maxDepth : Int := 0
  targetPath : String := ""
  targetHost : String := ""
  verbose : Bool := false
  current : Int := 0
  child : Bool := false

/-- Whether a `Run` invocation starts the stream-closing monitor
(`crawler.go` lines 74–80): exactly the invocations whose `child` flag is
unset. -/
def startsMonitor (pc : PageCrawler) : Bool := ¬ pc.child

/-- The kid `PageCrawler` constructed in the dispatch loop (`crawler.go`
lines 188–197): `child` is set, the depth limit is inherited, and the
depth counter is the parent's `current + 1` (`nextDepth`, line 166). -/
def mkKidCrawler (pc : PageCrawler) (kidPath kidHost : String) : PageCrawler :=
  { child := true
    targetPath := kidPath
    targetHost := kidHost
    verbose := pc.verbose
    maxDepth := pc.maxDepth
    current := pc.current + 1 }

/-- The root `PageCrawler` as constructed by the CLI caller: the `child`
flag is the Go zero value `false`. -/
def rootCrawler (targetPath targetHost : String) (maxDepth : Int) : PageCrawler :=
  { targetPath := targetPath, targetHost := targetHost, maxDepth := maxDepth }

/-! ## The dedup gate as an interleaving machine

`HasSet` (`hasset.go`) guards `Has` and `Add` with a single `RWMutex`, so
each call is individually atomic, but `PageCrawler.Run` performs the dedup
check (`seen.Has`, line 101) and the claim (`seen.Add`, line 111) as two
separate calls.  The machine below runs a set of `Run` invocations — each
identified by a number, with `path i` its target's raw path — against an
explicit schedule of gate steps.  Program order inside one invocation
(check before claim, each at most once) is enforced by the state. -/

/-- The state of the dedup gates of a crawl run: the shared seen set (string
membership models the Go map), the recorded result of each invocation's
`Has` call, the invocations whose claim step has executed, and the
invocations that passed the gate (checked `false`, then claimed, then
proceed into the body of `Run`). -/
structure GateState where
  seen : List String
  checks : List (Nat × Bool)
  claimed : List Nat
  passed : List Nat

/-- The initial gate state of a run: fresh `HasSet`, nothing dispatched. -/
def gateInit : GateState := ⟨[], [], [], []⟩

/-- One atomic action of the dedup gate: invocation `i`'s `seen.Has` call,
or its `seen.Add` call (reaching `Add` means `Has` returned false, since a
true check makes the invocation return). -/
inductive GateStep where
  | check (i : Nat)
  | claim (i : Nat)
deriving DecidableEq, Repr

/-- Run one gate step.  A `check` records `Has (normalizePath (path i))`
against the current seen set (first check wins; an invocation checks once).
A `claim` fires only for an invocation whose recorded check returned
`false` and which has not claimed yet; it adds the normalised path to the
seen set and marks the invocation as passed. -/
def gateStepRun (path : Nat → String) (s : GateState) : GateStep → GateState
  | .check i =>
    match s.checks.lookup i with
    | some _ => s
    | none =>
      { s with checks := (i, decide (normalizePath (path i) ∈ s.seen)) :: s.checks }
  | .claim i =>
    if i ∈ s.claimed then s
    else
      match s.checks.lookup i with
      | some false =>
        { seen := normalizePath (path i) :: s.seen
          checks := s.checks
          claimed := i :: s.claimed
          passed := i :: s.passed }
      | _ => { s with claimed := i :: s.claimed }

/-- Run a whole schedule of gate steps. -/
def gateRun (path : Nat → String) (steps : List GateStep) (s : GateState) :
    GateState :=
  steps.foldl (gateStepRun path) s

/-- The schedule in which each invocation's check and claim execute
back-to-back, i.e. the gate section runs atomically (no other gate step
interleaves between an invocation's `Has` and its `Add`). -/
def atomicSched (is : List Nat) : List GateStep :=
  is.flatMap (fun i => [.check i, .claim i])

/-! ## The worker pool's spawn decision as an interleaving machine

`workerPool.Add` (`pool.go`) reads `totalWorkers` and `activeWorkers` with
atomic loads, then — if the loaded total is under `max` and no idle worker
was observed — spawns a `lunch` goroutine.  The spawned goroutine increments
`totalWorkers` only once it starts running.  The machine below makes each of
those four actions an atomic step and runs `Add` calls (numbered) against an
explicit schedule. -/

/-- The pool state: the two atomic counters, each `Add` call's loaded
snapshots, the number of `lunch` goroutines spawned (`wg.Add(1); go
w.lunch()`), and the number of spawned goroutines that have executed their
initial `atomic.AddInt64(&w.totalWorkers, 1)`. -/
structure PoolState where
  totalWorkers : Int
  activeWorkers : Int
  loadedTotal : List (Nat × Int)
  loadedActive : List (Nat × Int)
  spawned : Nat
  incrsDone : Nat
deriving DecidableEq, Repr

/-- The initial pool state: no workers, no snapshots. -/
def poolInit : PoolState := ⟨0, 0, [], [], 0, 0⟩

/-- One atomic action of the pool's spawn path: `Add i`'s load of
`totalWorkers`, its load of `activeWorkers`, its spawn decision, or a
spawned `lunch` goroutine's initial increment of `totalWorkers`. -/
inductive PoolStep where
  | loadTotal (i : Nat)
  | loadActive (i : Nat)
  | spawnIfUnder (i : Nat)
  | lunchIncr
deriving DecidableEq, Repr

/-- Run one pool step.  Loads record a snapshot once per `Add` call.  The
spawn decision fires only after both loads (program order) and follows
`Add`'s source: when the loaded total is `< max` and no idle worker was
observed (`loaded active < loaded total` fails), spawn one `lunch`
goroutine; when an idle worker was observed the call attempts a direct
channel hand-off and spawns nothing.  A `lunchIncr` executes the pending
increment of one spawned goroutine. -/
def poolStepRun (max : Int) (s : PoolState) : PoolStep → PoolState
  | .loadTotal i =>
    if (s.loadedTotal.lookup i).isSome then s
    else { s with loadedTotal := (i, s.totalWorkers) :: s.loadedTotal }
  | .loadActive i =>
    if (s.loadedActive.lookup i).isSome then s
    else { s with loadedActive := (i, s.activeWorkers) :: s.loadedActive }
  | .spawnIfUnder i =>
    match s.loadedTotal.lookup i, s.loadedActive.lookup i with
    | some total, some active =>
      if total < max ∧ ¬ (active < total) then { s with spawned := s.spawned + 1 }
      else s
    | _, _ => s
  | .lunchIncr =>
    if s.incrsDone < s.spawned then
      { s with totalWorkers := s.totalWorkers + 1, incrsDone := s.incrsDone + 1 }
    else s

/-- Run a whole schedule of pool steps. -/
def poolRun (max : Int) (steps : List PoolStep) (s : PoolState) : PoolState :=
  steps.foldl (poolStepRun max) s

/-! ## The outstanding-work counter and stream closing

The run's completion is driven by a `sync.WaitGroup`: the root invocation
adds `1` before starting the single monitor goroutine that waits for the
counter to hit zero and then closes the report stream (`crawler.go`
lines 74–80); every invocation decrements on exit (line 82); every kid
dispatch increments before submission (line 183) and a rejected submission
is compensated by an immediate decrement (line 200).  A run's counter
history is modelled as the root's initial `+1` followed by a trace `t` of
`±1` deltas; the monitor closes the stream at the first moment the counter
returns to zero. -/

/-- The counter value after the first `k` events of a delta trace. -/
def sumTo (l : List Int) (k : Nat) : Int :=
  (l.take k).sum

/-- Every increment of the outstanding-work counter after the root's
initial one is performed by a running invocation (a kid dispatch at
line 183 of `crawler.go` executes inside its parent's `Run`), so it happens
while the counter is at least 1. -/
def addsWhileRunning (t : List Int) : Prop :=
  ∀ k, (hk : k < t.length) → t[k] = 1 → 1 ≤ sumTo (1 :: t) (k + 1)

/-- A `sync.WaitGroup` counter never goes negative (Go panics otherwise). -/
def counterNonneg (t : List Int) : Prop :=
  ∀ k, k ≤ (1 :: t).length → 0 ≤ sumTo (1 :: t) k

/-- Every event of a counter trace is a single increment or decrement. -/
def unitDeltas (t : List Int) : Prop :=
  ∀ e ∈ t, e = 1 ∨ e = -1

/-- A complete run: every registered invocation eventually called `Done`. -/
def runComplete (t : List Int) : Prop :=
  sumTo (1 :: t) (1 :: t).length = 0

/-! ## The crawl traversal

`PageCrawler.Run` recursively dispatches one invocation per discovered kid
into the worker pool; each invocation runs the dedup gate (skip if seen),
the depth gate (`crawler.go` line 106: skip when
`0 < MaxDepth ∧ MaxDepth ≤ current`), claims its path, and dispatches its
page's kids at depth `current + 1` (`nextDepth`, line 166).  The pool
guarantees no execution order among pending invocations, so a crawl run is
modelled as a small-step relation: at each step an arbitrary pending
invocation runs its gates.  The link graph is abstract and finite: `univ`
lists its vertices (normalised paths), and `g v` lists the kid paths of
`v`'s page that pass the dispatch filter (crawlable, nonempty trimmed
path); a vertex outside `univ` has no page and its invocation is dropped.
A run is complete when no invocation is pending — the moment the
outstanding-work counter reaches zero. -/

/-- `crawler.go` lines 89–91: a zero `MaxDepth` means unset and becomes
`-1` (unbounded); the depth gate only fires for positive values. -/
def normalizeDepth (d : Int) : Int := if d = 0 then -1 else d

/-- One scheduling step of a crawl run: some pending invocation `(v, c)` —
at any position in the pending list, since the pool imposes no order —
runs its gates in the source's order.  It returns if its path is already
seen (or has no page in the universe), returns if the depth gate fires,
and otherwise claims the path and dispatches one kid invocation per entry
of `g v` at counter `c + 1`.  Where newly dispatched kids sit in the
pending list is irrelevant, since selection is arbitrary. -/
inductive CrawlStep {α : Type} (univ : List α) (g : α → List α) (d : Int) :
    List (α × Nat) × List α → List (α × Nat) × List α → Prop
  | dropSeen (q₁ q₂ : List (α × Nat)) (v : α) (c : Nat) (seen : List α)
      (h : v ∈ seen ∨ v ∉ univ) :
      CrawlStep univ g d (q₁ ++ (v, c) :: q₂, seen) (q₁ ++ q₂, seen)
  | dropDepth (q₁ q₂ : List (α × Nat)) (v : α) (c : Nat) (seen : List α)
      (hv : ¬ (v ∈ seen ∨ v ∉ univ)) (h : 0 < d ∧ d ≤ (c : Int)) :
      CrawlStep univ g d (q₁ ++ (v, c) :: q₂, seen) (q₁ ++ q₂, seen)
  | claim (q₁ q₂ : List (α × Nat)) (v : α) (c : Nat) (seen : List α)
      (hv : ¬ (v ∈ seen ∨ v ∉ univ)) (hd : ¬ (0 < d ∧ d ≤ (c : Int))) :
      CrawlStep univ g d (q₁ ++ (v, c) :: q₂, seen)
        (q₁ ++ q₂ ++ (g v).map (fun w => (w, c + 1)), v :: seen)

/-- A (possibly partial) crawl run: a finite sequence of crawl steps in
some dispatch order.  A full crawl of `root` with depth limit `d` is a run
from `([(root, 0)], [])` — only the root invocation pending, nothing seen,
the depth limit normalised as `Run` does — to a state with no pending
invocation; the second component is then the run's visited set. -/
inductive CrawlRun {α : Type} (univ : List α) (g : α → List α) (d : Int) :
    List (α × Nat) × List α → List (α × Nat) × List α → Prop
  | refl (p : List (α × Nat) × List α) : CrawlRun univ g d p p
  | tail (p q r : List (α × Nat) × List α) (h1 : CrawlRun univ g d p q)
      (h2 : CrawlStep univ g d q r) : CrawlRun univ g d p r

/-- A directed path of `k` edges from `u` to `v` in the link graph whose
vertices lie in `univ` and avoid the set `seen`.  With `seen = []` this is
plain `k`-edge reachability. -/
inductive AvoidPath {α : Type} (univ : List α) (g : α → List α)
    (seen : List α) : α → α → Nat → Prop
  | nil (u : α) (hu : u ∈ univ) (hs : u ∉ seen) : AvoidPath univ g seen u u 0
  | cons (u w v : α) (k : Nat) (hu : u ∈ univ) (hs : u ∉ seen) (hw : w ∈ g u)
      (hp : AvoidPath univ g seen w v k) : AvoidPath univ g seen u v (k + 1)

/-- The depth gate's pass condition for a counter value `m`: with a
positive limit `d`, require `m < d`.  (`¬ (0 < d ∧ d ≤ m)`.) -/
def okDepth (d : Int) (m : Nat) : Prop := 0 < d → (m : Int) < d

/-- `x` is still obtainable from the pending queue: some pending invocation
`(u, c)` can reach `x` by a `k`-edge path through unclaimed vertices with
`c + k` inside the depth budget. -/
def availQ {α : Type} (univ : List α) (g : α → List α) (d : Int)
    (queue : List (α × Nat)) (seen : List α) (x : α) : Prop :=
  ∃ u c k, (u, c) ∈ queue ∧ AvoidPath univ g seen u x k ∧ okDepth d (c + k)

/-- Queue-entry invariant of a crawl run: a pending invocation `(v, c)` is
the root dispatch at counter `0`, or was dispatched as the kid of a
claimed vertex `u` reachable by a `k`-edge path with `c = k + 1` — its
depth counter is the exact length of its dispatch chain. -/
def EntryOK {α : Type} (univ : List α) (g : α → List α) (root : α)
    (e : α × Nat) : Prop :=
  (e.1 = root ∧ e.2 = 0) ∨
    ∃ u k, AvoidPath univ g [] root u k ∧ e.1 ∈ g u ∧ e.2 = k + 1

/-- Visited-vertex invariant of a crawl run: every claimed vertex is
reachable from the root by a path whose length passes the depth gate. -/
def VisOK {α : Type} (univ : List α) (g : α → List α) (d : Int)
    (root x : α) : Prop :=
  ∃ k, AvoidPath univ g [] root x k ∧ okDepth d k

/-- The state invariant of the dedup-gate machine used for the at-most-once
property: every passed invocation's normalised path has been claimed into
the seen set, passed invocations have pairwise-distinct normalised paths,
and an invocation with a recorded check has already run its claim step
(true at pair boundaries of atomically scheduled gate sections). -/
def GateINV (path : Nat → String) (s : GateState) : Prop :=
  (∀ j ∈ s.passed, normalizePath (path j) ∈ s.seen) ∧
  s.passed.Pairwise (fun i j => normalizePath (path i) ≠ normalizePath (path j)) ∧
  (∀ i, (s.checks.lookup i).isSome = true → i ∈ s.claimed)

/-! ## Theorems -/

/-- C2: the claim asserts that no interleaving of `Add` calls can spawn
more workers than `max` because the spawn decision is an atomic
check-and-increment.  In the source the decision is read-then-act: `Add`
loads `totalWorkers` (line 55) and the increment happens only later, inside
the spawned `lunch` goroutine (line 93).  In the interleaving below two
`Add` calls on a pool with `max = 1` both load `totalWorkers = 0` before
either spawned worker increments it, and both spawn: the pool ends with 2
spawned workers and `totalWorkers = 2`, exceeding `max = 1`. -/
theorem workerPool_add_over_spawns :
    (poolRun 1 [.loadTotal 0, .loadActive 0, .loadTotal 1, .loadActive 1,
        .spawnIfUnder 0, .spawnIfUnder 1, .lunchIncr, .lunchIncr] poolInit).spawned = 2 ∧
    (poolRun 1 [.loadTotal 0, .loadActive 0, .loadTotal 1, .loadActive 1,
        .spawnIfUnder 0, .spawnIfUnder 1, .lunchIncr, .lunchIncr] poolInit).totalWorkers = 2 ∧
    (1 : Int) < 2 := by
  decide

/-- C4: evaluation of the extractor at the failing input.  The claim says
each resolved URL is returned at most once (dedup by resolved string form);
but the source's accumulator `map[*url.URL]struct{}` is keyed by pointer
and every parse allocates a fresh pointer, so no dedup occurs: an HTML body
with the same `href="/x"` on two tags yields the resolved URL
`http://h/x` twice. -/
theorem farmWithHTML_no_dedup :
    (farmWithHTML [.startTag [("href", "/x")], .startTag [("href", "/x")], .errorTok]
        ⟨"http", "h", ""⟩).count ⟨"http", "h", "/x"⟩ = 2 := by
  decide

/-- C5: the status probe's four-way classification.  A transport error
yields `isLive = false` with the transport error as reason; a non-2xx
status yields `isLive = false` with reason `ErrPageFailed` ("page failed");
a 2xx response whose content type does not contain `text/html`/`text/xhtml`
yields `isLive = true, isCrawlable = false` with reason `ErrNonHTMLURL`
("non-html"); a 2xx response with html content type yields
`isLive = true, isCrawlable = true`. -/
theorem getURLStatus_classification :
    (∀ now e, getURLStatus now (.err e) =
      { isLive := false, isCrawlable := false, lastStatus := 500,
        atTime := now, reason := some (.transport e) }) ∧
    (∀ now code ct, code < 200 ∨ code > 299 →
      getURLStatus now (.ok code ct) =
      { isLive := false, isCrawlable := false, lastStatus := code,
        atTime := now, reason := some .pageFailed }) ∧
    (∀ now code ct, 200 ≤ code → code ≤ 299 → htmlContentType ct = false →
      getURLStatus now (.ok code ct) =
      { isLive := true, isCrawlable := false, lastStatus := code,
        atTime := now, reason := some .nonHTMLURL }) ∧
    (∀ now code ct, 200 ≤ code → code ≤ 299 → htmlContentType ct = true →
      getURLStatus now (.ok code ct) =
      { isLive := true, isCrawlable := true, lastStatus := code,
        atTime := now, reason := none }) := by
  refine ⟨fun now e => rfl, ?_, ?_, ?_⟩
  · intro now code ct h
    simp only [getURLStatus]
    rw [if_pos h]
  · intro now code ct h1 h2 hct
    simp only [getURLStatus]
    rw [if_neg (by omega), if_pos (by simp [hct])]
  · intro now code ct h1 h2 hct
    simp only [getURLStatus]
    rw [if_neg (by omega), if_neg (by simp [hct])]

/-- Witness for C5: the classification evaluated at one concrete input per
case. -/
theorem getURLStatus_classification_witness :
    (getURLStatus 0 (.err "dial tcp: i/o timeout")).reason
        = some (.transport "dial tcp: i/o timeout") ∧
    ((404 < 200 ∨ 404 > 299) ∧
      (getURLStatus 0 (.ok 404 "text/html")).reason = some .pageFailed) ∧
    (200 ≤ 200 ∧ 200 ≤ 299 ∧ htmlContentType "application/json" = false ∧
      (getURLStatus 0 (.ok 200 "application/json"))
        = { isLive := true, isCrawlable := false, lastStatus := 200,
            atTime := 0, reason := some .nonHTMLURL }) ∧
    (htmlContentType "text/html; charset=utf-8" = true ∧
      (getURLStatus 0 (.ok 200 "text/html; charset=utf-8")).isCrawlable = true) := by
  obtain ⟨h1, h2, h3, h4⟩ := getURLStatus_classification
  refine ⟨by rw [h1], ⟨by decide, ?_⟩, ⟨by decide, by decide, by decide, ?_⟩, ⟨by decide, ?_⟩⟩
  · rw [h2 0 404 "text/html" (by decide)]
  · exact h3 0 200 "application/json" (by decide) (by decide) (by decide)
  · rw [h4 0 200 "text/html; charset=utf-8" (by decide) (by decide) (by decide)]

/-- C7: a discovered link appears among the emitted report's children iff
its host string exactly equals the target page's host; and every kid the
dispatch loop submits (all of which come from the report's children) is on
the target's host, so cross-host links never yield their own reports. -/
theorem crawlBody_children_same_host :
    ∀ (probe : GoURL → Status) (target : GoURL) (links : List GoURL) (u : GoURL),
      ((∃ r ∈ CrawlBody probe target links, r.path = u) ↔
        u ∈ links ∧ u.host = target.host) ∧
      (∀ (seen : List String) (kid : LinkReport),
        kid ∈ dispatchKids seen (CrawlBody probe target links) →
        kid.path.host = target.host) := by
  intro probe target links u
  constructor
  · constructor
    · rintro ⟨r, hr, rfl⟩
      simp only [CrawlBody, List.mem_map, List.mem_filter, decide_eq_true_eq] at hr
      obtain ⟨l, ⟨hl, hh⟩, rfl⟩ := hr
      exact ⟨hl, hh⟩
    · rintro ⟨hl, hh⟩
      refine ⟨.mk u (probe u) [], ?_, rfl⟩
      simp only [CrawlBody, List.mem_map, List.mem_filter, decide_eq_true_eq]
      exact ⟨u, ⟨hl, hh⟩, rfl⟩
  · intro seen kid hkid
    have hmem : kid ∈ CrawlBody probe target links :=
      (List.mem_filter.mp hkid).1
    simp only [CrawlBody, List.mem_map, List.mem_filter, decide_eq_true_eq] at hmem
    obtain ⟨l, ⟨_, hh⟩, rfl⟩ := hmem
    exact hh

/-- Witness for C7 at a concrete page: of two discovered links, only the
same-host one becomes a child, and the dispatched kid is on the target's
host. -/
theorem crawlBody_children_same_host_witness :
    ((∃ r ∈ CrawlBody (fun _ => ⟨true, true, 200, 0, none⟩) ⟨"http", "h", "/"⟩
        [⟨"http", "h", "/a"⟩, ⟨"http", "other", "/b"⟩], r.path = ⟨"http", "h", "/a"⟩) ∧
      ¬ (∃ r ∈ CrawlBody (fun _ => ⟨true, true, 200, 0, none⟩) ⟨"http", "h", "/"⟩
        [⟨"http", "h", "/a"⟩, ⟨"http", "other", "/b"⟩], r.path = ⟨"http", "other", "/b"⟩)) ∧
    (LinkReport.mk ⟨"http", "h", "/a"⟩ ⟨true, true, 200, 0, none⟩ []
        ∈ dispatchKids [] (CrawlBody (fun _ => ⟨true, true, 200, 0, none⟩) ⟨"http", "h", "/"⟩
          [⟨"http", "h", "/a"⟩, ⟨"http", "other", "/b"⟩]) →
      (LinkReport.mk ⟨"http", "h", "/a"⟩ ⟨true, true, 200, 0, none⟩ []).path.host = "h") := by
  have h := crawlBody_children_same_host (fun _ => ⟨true, true, 200, 0, none⟩)
    ⟨"http", "h", "/"⟩ [⟨"http", "h", "/a"⟩, ⟨"http", "other", "/b"⟩]
  refine ⟨⟨?_, ?_⟩, ?_⟩
  · exact (h ⟨"http", "h", "/a"⟩).1.mpr ⟨by decide, rfl⟩
  · intro hc
    have := (h ⟨"http", "other", "/b"⟩).1.mp hc
    exact absurd this.2 (by decide)
  · exact (h ⟨"http", "h", "/a"⟩).2 []
      (LinkReport.mk ⟨"http", "h", "/a"⟩ ⟨true, true, 200, 0, none⟩ [])

/-- C8: a node probed live and crawlable whose body fetch fails has its
report's `isLive` flipped to `false` — every other status field unchanged —
and `runNode` emits exactly that one report, with no children, dispatching
nothing (`crawler.go` lines 145–150 return before the kid loop). -/
theorem runNode_fetch_failure_downgrades_only_isLive :
    ∀ (rep : LinkReport) (kids : List LinkReport) (seen : List String),
      rep.status.isLive = true → rep.status.isCrawlable = true →
      rep.pointsTo = [] →
      runNode false rep false kids seen =
        ([.mk rep.path { rep.status with isLive := false } []], []) ∧
      { rep.status with isLive := false }.isLive = false ∧
      { rep.status with isLive := false }.isCrawlable = rep.status.isCrawlable ∧
      { rep.status with isLive := false }.lastStatus = rep.status.lastStatus ∧
      { rep.status with isLive := false }.atTime = rep.status.atTime ∧
      { rep.status with isLive := false }.reason = rep.status.reason := by
  intro rep kids seen hl hc hpt
  refine ⟨?_, rfl, rfl, rfl, rfl, rfl⟩
  simp [runNode, hl, hc, hpt]

/-- Witness for C8 at a concrete live, crawlable node with a failed
fetch. -/
theorem runNode_fetch_failure_witness :
    (LinkReport.mk ⟨"http", "h", "/a"⟩ ⟨true, true, 200, 7, none⟩ []).status.isLive = true ∧
    runNode false (LinkReport.mk ⟨"http", "h", "/a"⟩ ⟨true, true, 200, 7, none⟩ []) false [] []
      = ([LinkReport.mk ⟨"http", "h", "/a"⟩ ⟨false, true, 200, 7, none⟩ []], []) :=
  ⟨rfl, (runNode_fetch_failure_downgrades_only_isLive
    (LinkReport.mk ⟨"http", "h", "/a"⟩ ⟨true, true, 200, 7, none⟩ []) [] [] rfl rfl rfl).1⟩

/-- C9: an invocation that finds the cancellation signal fired at its
`select` (`crawler.go` lines 113–116) returns with no report emitted and no
kid dispatched — in particular nothing, so no error, reaches the stream
consumer; and for a run whose root invocation is cancelled immediately, the
outstanding-work trace is the root's `+1` followed by its `Done`, whose
counter stays at `1` until the final event and is `0` exactly at the end —
so the monitor still closes the (empty) report stream. -/
theorem run_cancelled_emits_nothing :
    (∀ (rep : LinkReport) (fetchOk : Bool) (kids : List LinkReport) (seen : List String),
      runNode true rep fetchOk kids seen = ([], [])) ∧
    unitDeltas [-1] ∧ counterNonneg [-1] ∧ runComplete [-1] ∧
    1 ≤ sumTo (1 :: [-1]) 1 ∧ sumTo (1 :: [-1]) 2 = 0 := by
  refine ⟨fun rep fetchOk kids seen => rfl, ?_, ?_, ?_, by decide, by decide⟩
  · unfold unitDeltas
    decide
  · unfold counterNonneg
    decide
  · unfold runComplete
    decide

/-- C10: the dispatch loop (`crawler.go` lines 169–177) skips every kid
whose slash-trimmed path is empty — in particular a link back to the host
root (`/` or empty path) — before even looking at crawlability or the seen
set; while a run started directly at the root URL passes its own gate, the
root path `"/"` normalising to the root marker.  So only a run started at
the root URL ever crawls the root path. -/
theorem rootward_kid_never_dispatched :
    (∀ (seen : List String) (kids : List LinkReport) (kid : LinkReport),
      trimSuffixSlash kid.path.path = "" → kid ∉ dispatchKids seen kids) ∧
    trimSuffixSlash "/" = "" ∧ trimSuffixSlash "" = "" ∧
    normalizePath "/" = "/" ∧
    (gateRun (fun _ => "/") (atomicSched [0]) gateInit).passed = [0] := by
  refine ⟨?_, by decide, by decide, by decide, by decide⟩
  intro seen kids kid h hmem
  simp only [dispatchKids, List.mem_filter, decide_eq_true_eq, h] at hmem
  simp at hmem

/-- Witness for C10: a crawlable, unseen kid pointing at the host root is
not dispatched. -/
theorem rootward_kid_never_dispatched_witness :
    trimSuffixSlash (LinkReport.mk ⟨"http", "h", "/"⟩ ⟨true, true, 200, 0, none⟩ []).path.path
      = "" ∧
    (LinkReport.mk ⟨"http", "h", "/"⟩ ⟨true, true, 200, 0, none⟩ []) ∉
      dispatchKids [] [LinkReport.mk ⟨"http", "h", "/"⟩ ⟨true, true, 200, 0, none⟩ []] :=
  ⟨by decide, rootward_kid_never_dispatched.1 []
    [LinkReport.mk ⟨"http", "h", "/"⟩ ⟨true, true, 200, 0, none⟩ []]
    (LinkReport.mk ⟨"http", "h", "/"⟩ ⟨true, true, 200, 0, none⟩ []) (by decide)⟩

/-- One atomically scheduled check/claim pair preserves the gate
invariant. -/
theorem gate_pair_preserves (path : Nat → String) (s : GateState) (i : Nat)
    (hs : GateINV path s) :
    GateINV path (gateStepRun path (gateStepRun path s (.check i)) (.claim i)) := by
  obtain ⟨h1, h2, h3⟩ := hs
  cases hc : s.checks.lookup i with
  | some b =>
    have hcl : i ∈ s.claimed := h3 i (by rw [hc]; rfl)
    have e1 : gateStepRun path s (.check i) = s := by
      simp [gateStepRun, hc]
    have e2 : gateStepRun path s (.claim i) = s := by
      simp [gateStepRun, hcl]
    rw [e1, e2]
    exact ⟨h1, h2, h3⟩
  | none =>
    have e1 : gateStepRun path s (.check i) =
        { s with checks := (i, decide (normalizePath (path i) ∈ s.seen)) :: s.checks } := by
      simp [gateStepRun, hc]
    rw [e1]
    by_cases hcl : i ∈ s.claimed
    · have e2 : gateStepRun path
          { s with checks := (i, decide (normalizePath (path i) ∈ s.seen)) :: s.checks }
          (.claim i) =
          { s with checks := (i, decide (normalizePath (path i) ∈ s.seen)) :: s.checks } := by
        simp [gateStepRun, hcl]
      rw [e2]
      refine ⟨h1, h2, fun j hj => ?_⟩
      by_cases hji : j = i
      · exact hji ▸ hcl
      · exact h3 j (by simpa [List.lookup, beq_eq_false_iff_ne.mpr hji] using hj)
    · by_cases hmem : normalizePath (path i) ∈ s.seen
      · have e2 : gateStepRun path
            { s with checks := (i, decide (normalizePath (path i) ∈ s.seen)) :: s.checks }
            (.claim i) =
            { s with checks := (i, decide (normalizePath (path i) ∈ s.seen)) :: s.checks,
                     claimed := i :: s.claimed } := by
          simp [gateStepRun, hcl, List.lookup, hmem]
        rw [e2]
        refine ⟨h1, h2, fun j hj => ?_⟩
        by_cases hji : j = i
        · exact hji ▸ List.mem_cons_self i s.claimed
        · exact List.mem_cons_of_mem i (h3 j (by simpa [List.lookup, beq_eq_false_iff_ne.mpr hji] using hj))
      · have e2 : gateStepRun path
            { s with checks := (i, decide (normalizePath (path i) ∈ s.seen)) :: s.checks }
            (.claim i) =
            { seen := normalizePath (path i) :: s.seen
              checks := (i, decide (normalizePath (path i) ∈ s.seen)) :: s.checks
              claimed := i :: s.claimed
              passed := i :: s.passed } := by
          simp [gateStepRun, hcl, List.lookup, hmem]
        rw [e2]
        refine ⟨?_, ?_, ?_⟩
        · intro j hj
          rcases List.mem_cons.mp hj with hji | hj
          · exact hji ▸ List.mem_cons_self _ _
          · exact List.mem_cons_of_mem _ (h1 j hj)
        · refine List.pairwise_cons.mpr ⟨fun j hj heq => ?_, h2⟩
          exact hmem (heq ▸ h1 j hj)
        · intro j hj
          by_cases hji : j = i
          · exact hji ▸ List.mem_cons_self i s.claimed
          · exact List.mem_cons_of_mem i (h3 j (by simpa [List.lookup, beq_eq_false_iff_ne.mpr hji] using hj))

/-- Running any list of atomically scheduled gate sections preserves the
gate invariant. -/
theorem gate_atomic_invariant (path : Nat → String) :
    ∀ (is : List Nat) (s : GateState), GateINV path s →
      GateINV path (gateRun path (atomicSched is) s) := by
  intro is
  induction is with
  | nil => exact fun s h => h
  | cons i is ih =>
    intro s hs
    show GateINV path (gateRun path (atomicSched is)
      (gateStepRun path (gateStepRun path s (.check i)) (.claim i)))
    exact ih _ (gate_pair_preserves path s i hs)

/-- Any single gate step preserves the blocked status of an invocation
whose normalised path is already in the seen set and whose check has not
yet run (or ran and returned a hit): the path stays claimed, the recorded
check can only be a hit, and the invocation stays out of `passed`. -/
theorem gate_step_blocked (path : Nat → String) (s : GateState) (st : GateStep)
    (i : Nat) (h1 : normalizePath (path i) ∈ s.seen)
    (h2 : s.checks.lookup i = none ∨ s.checks.lookup i = some true)
    (h3 : i ∉ s.passed) :
    normalizePath (path i) ∈ (gateStepRun path s st).seen ∧
    ((gateStepRun path s st).checks.lookup i = none ∨
      (gateStepRun path s st).checks.lookup i = some true) ∧
    i ∉ (gateStepRun path s st).passed := by
  cases st with
  | check j =>
    cases hc : s.checks.lookup j with
    | some b =>
      have e : gateStepRun path s (.check j) = s := by
        simp [gateStepRun, hc]
      rw [e]
      exact ⟨h1, h2, h3⟩
    | none =>
      have e : gateStepRun path s (.check j) =
          { s with checks :=
              (j, decide (normalizePath (path j) ∈ s.seen)) :: s.checks } := by
        simp [gateStepRun, hc]
      rw [e]
      refine ⟨h1, ?_, h3⟩
      by_cases hij : i = j
      · subst hij
        right
        simp [List.lookup, h1]
      · simpa [List.lookup, beq_eq_false_iff_ne.mpr hij] using h2
  | claim j =>
    by_cases hcl : j ∈ s.claimed
    · have e : gateStepRun path s (.claim j) = s := by
        simp [gateStepRun, hcl]
      rw [e]
      exact ⟨h1, h2, h3⟩
    · cases hc : s.checks.lookup j with
      | some b =>
        cases b with
        | false =>
          have hij : i ≠ j := by
            intro he
            rw [he] at h2
            rcases h2 with h | h <;> rw [hc] at h <;> simp at h
          have e : gateStepRun path s (.claim j) =
              { seen := normalizePath (path j) :: s.seen
                checks := s.checks
                claimed := j :: s.claimed
                passed := j :: s.passed } := by
            simp [gateStepRun, hcl, hc]
          rw [e]
          refine ⟨List.mem_cons_of_mem _ h1, h2, ?_⟩
          intro hmem
          rcases List.mem_cons.mp hmem with h | h
          · exact hij h
          · exact h3 h
        | true =>
          have e : gateStepRun path s (.claim j) =
              { s with claimed := j :: s.claimed } := by
            simp [gateStepRun, hcl, hc]
          rw [e]
          exact ⟨h1, h2, h3⟩
      | none =>
        have e : gateStepRun path s (.claim j) =
            { s with claimed := j :: s.claimed } := by
          simp [gateStepRun, hcl, hc]
        rw [e]
        exact ⟨h1, h2, h3⟩

/-- Once a path is in the Seen Set, an invocation whose dedup check has
not yet run never proceeds past the gate, under every remaining schedule:
`PageCrawler.Run` re-reads the `HasSet` at its check and returns on a
hit. -/
theorem gate_blocked_run (path : Nat → String) :
    ∀ (steps : List GateStep) (s : GateState) (i : Nat),
      normalizePath (path i) ∈ s.seen →
      s.checks.lookup i = none ∨ s.checks.lookup i = some true →
      i ∉ s.passed →
      i ∉ (gateRun path steps s).passed := by
  intro steps
  induction steps with
  | nil => exact fun s i h1 h2 h3 => h3
  | cons st steps ih =>
    intro s i h1 h2 h3
    obtain ⟨g1, g2, g3⟩ := gate_step_blocked path s st i h1 h2 h3
    exact ih (gateStepRun path s st) i g1 g2 g3

/-- C1 (amended): the dedup check and the claim are two separate lock
acquisitions of the `HasSet`, so the original claim holds only in
restricted schedules.  What the code guarantees: (1) in every schedule,
once a path is in the Seen Set, an invocation whose dedup check runs
afterwards (its check not yet recorded, or recorded as a hit) never
proceeds past the gate; and (2) in every schedule in which each
invocation's check and claim execute as one atomic section — e.g. under a
single worker, which serialises invocations — the invocations that proceed
past the dedup gate have pairwise-distinct normalised paths: at most one
per distinct normalised path, whatever the dispatch order of the
sections. -/
theorem dedup_gate_atomic_at_most_once :
    (∀ (path : Nat → String) (steps : List GateStep) (s : GateState) (i : Nat),
      normalizePath (path i) ∈ s.seen →
      s.checks.lookup i = none ∨ s.checks.lookup i = some true →
      i ∉ s.passed →
      i ∉ (gateRun path steps s).passed) ∧
    (∀ (path : Nat → String) (is : List Nat),
      ((gateRun path (atomicSched is) gateInit).passed).Pairwise
        (fun i j => normalizePath (path i) ≠ normalizePath (path j))) := by
  constructor
  · exact fun path steps s i h1 h2 h3 => gate_blocked_run path steps s i h1 h2 h3
  · intro path is
    refine (gate_atomic_invariant path is gateInit ⟨?_, ?_, ?_⟩).2.1
    · intro j hj
      exact absurd hj (List.not_mem_nil j)
    · exact List.Pairwise.nil
    · intro j hj
      exact absurd hj (by simp [gateInit, List.lookup])

/-- C1 counterexample: the claim as stated — at most one invocation per
distinct normalised path proceeds past the dedup gate, independent of
dispatch order — fails on the code.  Invocations 0 (raw path `/a/`) and 1
(raw path `/a`) normalise to the same path `/a`; in the schedule where both
`Has` checks run before either `Add`, both invocations pass the gate (the
final `passed` list holds both), because the check and the claim are not a
single atomic section. -/
theorem dedup_gate_race_two_passes :
    normalizePath "/a/" = normalizePath "/a" ∧ (0 : Nat) ≠ 1 ∧
    (gateRun (fun i => if i = 0 then "/a/" else "/a")
        [.check 0, .check 1, .claim 0, .claim 1] gateInit).passed = [1, 0] := by
  decide

/-- Witness for C1's amended theorem: with `/a` already in the Seen Set,
an invocation for `/a` that has not yet checked does not pass the gate
under the schedule that then runs its check and claim. -/
theorem dedup_gate_atomic_at_most_once_witness :
    (normalizePath "/a" ∈ (⟨["/a"], [], [], []⟩ : GateState).seen ∧
      ((⟨["/a"], [], [], []⟩ : GateState).checks.lookup 0 = none ∨
        (⟨["/a"], [], [], []⟩ : GateState).checks.lookup 0 = some true) ∧
      0 ∉ (⟨["/a"], [], [], []⟩ : GateState).passed) ∧
    0 ∉ (gateRun (fun _ => "/a") [.check 0, .claim 0]
        ⟨["/a"], [], [], []⟩).passed :=
  ⟨⟨by decide, Or.inl rfl, by decide⟩,
    dedup_gate_atomic_at_most_once.1 (fun _ => "/a") [.check 0, .claim 0]
      ⟨["/a"], [], [], []⟩ 0 (by decide) (Or.inl rfl) (by decide)⟩

/-- Unfolding one event of a counter trace's partial sum. -/
theorem sumTo_succ (l : List Int) (k : Nat) (h : k < l.length) :
    sumTo l (k + 1) = sumTo l k + l[k] := by
  unfold sumTo
  rw [List.take_succ, List.sum_append, List.getElem?_eq_getElem h]
  simp

/-- C3: the closing monitor is started only by the run's first (root)
invocation — every kid crawler is constructed with `child := true` and so
never starts one, while the caller-constructed root (zero-value `child`)
does; and the single monitor's `Wait` completes exactly when the
outstanding-work counter reaches zero: for every well-formed complete
counter trace (unit deltas, increments only from running invocations, the
counter never negative), the counter stays `≥ 1` strictly before the
trace's end and is `0` at the end (`runComplete`), so the report stream is
closed exactly once, exactly at the moment the counter reaches zero. -/
theorem stream_closes_exactly_at_zero :
    (∀ (pc : PageCrawler) (kidPath kidHost : String),
      startsMonitor (mkKidCrawler pc kidPath kidHost) = false) ∧
    (∀ (tp th : String) (d : Int), startsMonitor (rootCrawler tp th d) = true) ∧
    (∀ t : List Int, unitDeltas t → addsWhileRunning t → counterNonneg t →
      runComplete t →
      ∀ k, 0 < k → k < (1 :: t).length → 1 ≤ sumTo (1 :: t) k) := by
  refine ⟨fun pc kidPath kidHost => rfl, fun tp th d => rfl, ?_⟩
  intro t hunit hadds hnn hcomp
  by_contra hbad
  push_neg at hbad
  obtain ⟨k, hk0, hklen, hk⟩ := hbad
  have hex : ∃ m, 0 < m ∧ m < (1 :: t).length ∧ sumTo (1 :: t) m < 1 :=
    ⟨k, hk0, hklen, hk⟩
  obtain ⟨hm0, hmlen, hmlt⟩ := Nat.find_spec hex
  have h1sum : sumTo (1 :: t) 1 = 1 := by simp [sumTo]
  have hne1 : Nat.find hex ≠ 1 := by
    intro h
    rw [h, h1sum] at hmlt
    omega
  obtain ⟨j, hNj⟩ : ∃ j, Nat.find hex = j + 2 := ⟨Nat.find hex - 2, by omega⟩
  rw [hNj] at hmlt hmlen
  have hlen1 : (1 :: t).length = t.length + 1 := rfl
  have hmin := Nat.find_min hex (show j + 1 < Nat.find hex by rw [hNj]; omega)
  have hj1 : 1 ≤ sumTo (1 :: t) (j + 1) := by
    by_contra hc
    push_neg at hc
    exact hmin ⟨by omega, by omega, hc⟩
  have hlen_t : j + 1 < t.length := by omega
  have hstep1 : sumTo (1 :: t) (j + 2) = sumTo (1 :: t) (j + 1) + t[j] := by
    have h := sumTo_succ (1 :: t) (j + 1) (by omega)
    rw [List.getElem_cons_succ] at h
    exact h
  have hmemj : t[j] ∈ t := by
    apply List.getElem_mem
  have hge0 : 0 ≤ sumTo (1 :: t) (j + 2) := hnn (j + 2) (by omega)
  have hzero : sumTo (1 :: t) (j + 2) = 0 := by omega
  rcases hunit t[j] hmemj with he1 | he1
  · rw [he1] at hstep1
    omega
  · have hmemj1 : t[j + 1] ∈ t := by
      apply List.getElem_mem
    rcases hunit t[j + 1] hmemj1 with he2 | he2
    · have hadd2 : 1 ≤ sumTo (1 :: t) (j + 2) := hadds (j + 1) hlen_t he2
      omega
    · have hstep2 : sumTo (1 :: t) (j + 3) = sumTo (1 :: t) (j + 2) + t[j + 1] := by
        have h := sumTo_succ (1 :: t) (j + 2) (by omega)
        rw [List.getElem_cons_succ] at h
        exact h
      have hge := hnn (j + 3) (by omega)
      rw [he2] at hstep2
      omega

/-- Witness for C3 at a concrete complete trace: the root registers, spawns
one kid, both finish. -/
theorem stream_closes_exactly_at_zero_witness :
    unitDeltas [1, -1, -1] ∧ addsWhileRunning [1, -1, -1] ∧
    counterNonneg [1, -1, -1] ∧ runComplete [1, -1, -1] ∧
    (∀ k, 0 < k → k < (1 :: [1, -1, -1]).length → 1 ≤ sumTo (1 :: [1, -1, -1]) k) := by
  have h1 : unitDeltas [1, -1, -1] := by
    unfold unitDeltas
    decide
  have h2 : addsWhileRunning [1, -1, -1] := by
    unfold addsWhileRunning
    decide
  have h3 : counterNonneg [1, -1, -1] := by
    unfold counterNonneg
    decide
  have h4 : runComplete [1, -1, -1] := by
    unfold runComplete
    decide
  exact ⟨h1, h2, h3, h4,
    stream_closes_exactly_at_zero.2.2 [1, -1, -1] h1 h2 h3 h4⟩

/-- The start vertex of an avoiding path lies in the universe and outside
the avoided set. -/
theorem avoidPath_start {α : Type} {univ : List α} {g : α → List α}
    {seen : List α} {u x : α} {k : Nat} (h : AvoidPath univ g seen u x k) :
    u ∈ univ ∧ u ∉ seen := by
  cases h with
  | nil u hu hs => exact ⟨hu, hs⟩
  | cons u w v k hu hs hw hp => exact ⟨hu, hs⟩

/-- A path avoiding a superset of `seen` also avoids `seen`. -/
theorem avoidPath_anti {α : Type} {univ : List α} {g : α → List α}
    {seen seen' : List α} (hsub : ∀ a ∈ seen, a ∈ seen') {u x : α} {k : Nat}
    (h : AvoidPath univ g seen' u x k) : AvoidPath univ g seen u x k := by
  induction h with
  | nil u hu hs => exact .nil u hu (fun hc => hs (hsub u hc))
  | cons u w v k hu hs hw hp ih => exact .cons u w v k hu (fun hc => hs (hsub u hc)) hw ih

/-- A zero-length avoiding path is a stationary vertex. -/
theorem avoidPath_zero {α : Type} {univ : List α} {g : α → List α}
    {seen : List α} {u x : α} :
    AvoidPath univ g seen u x 0 ↔ x = u ∧ u ∈ univ ∧ u ∉ seen := by
  constructor
  · intro h
    cases h with
    | nil u hu hs => exact ⟨rfl, hu, hs⟩
  · rintro ⟨rfl, hu, hs⟩
    exact .nil x hu hs

/-- Splitting an avoiding path at a newly claimed vertex `v`: either the
path already avoids `v`, or it ends at `v`, or a strictly shorter suffix of
it starts at a kid of `v` and avoids `v` as well. -/
theorem avoidPath_extract {α : Type} {univ : List α} {g : α → List α}
    {seen : List α} (v : α) {u x : α} {k : Nat}
    (h : AvoidPath univ g seen u x k) :
    AvoidPath univ g (v :: seen) u x k ∨ x = v ∨
      ∃ w k', w ∈ g v ∧ AvoidPath univ g (v :: seen) w x k' ∧ k' < k := by
  induction h with
  | nil u hu hs =>
    by_cases huv : u = v
    · exact Or.inr (Or.inl huv)
    · refine Or.inl (.nil u hu ?_)
      simp [List.mem_cons, huv, hs]
  | cons u w y k hu hs hw hp ih =>
    rcases ih with h1 | h2 | ⟨w', k', hw', hp', hk'⟩
    · by_cases huv : u = v
      · subst huv
        exact Or.inr (Or.inr ⟨w, k, hw, h1, Nat.lt_succ_self k⟩)
      · refine Or.inl (.cons u w y k hu ?_ hw h1)
        simp [List.mem_cons, huv, hs]
    · exact Or.inr (Or.inl h2)
    · exact Or.inr (Or.inr ⟨w', k', hw', hp', Nat.lt_succ_of_lt hk'⟩)

/-- The depth-budget pass condition is antitone in the counter. -/
theorem okDepth_mono {d : Int} {m m' : Nat} (h : m ≤ m') (h2 : okDepth d m') :
    okDepth d m := by
  intro hd
  have := h2 hd
  have hc : (m : Int) ≤ (m' : Int) := by exact_mod_cast h
  omega

/-- Extending an avoiding path by one edge at its end. -/
theorem avoidPath_snoc {α : Type} {univ : List α} {g : α → List α}
    {seen : List α} {u v w : α} {k : Nat}
    (h : AvoidPath univ g seen u v k) :
    w ∈ g v → w ∈ univ → w ∉ seen → AvoidPath univ g seen u w (k + 1) := by
  induction h with
  | nil u hu hs =>
    intro hw hwu hws
    exact .cons u w w 0 hu hs hw (.nil w hwu hws)
  | cons u w0 v k hu hs hw0 hp ih =>
    intro hw hwu hws
    exact .cons u w0 w (k + 1) hu hs hw0 (ih hw hwu hws)

/-- A queue entry satisfying the entry invariant whose vertex is in the
universe is reachable by a path of exactly its counter's length. -/
theorem entryOK_path {α : Type} {univ : List α} {g : α → List α}
    {root v : α} {c : Nat} (h : EntryOK univ g root (v, c)) (hv : v ∈ univ) :
    AvoidPath univ g [] root v c := by
  rcases h with ⟨h1, h2⟩ | ⟨u, k, hp, hg, hc⟩
  · have h1' : v = root := h1
    have h2' : c = 0 := h2
    rw [h1', h2']
    exact .nil root (h1' ▸ hv) (List.not_mem_nil root)
  · have hc' : c = k + 1 := hc
    rw [hc']
    exact avoidPath_snoc hp hg hv (List.not_mem_nil v)

/-- One crawl step preserves the soundness invariants: pending entries
carry exact dispatch-chain lengths, and visited vertices are reachable
within the depth budget. -/
theorem crawlStep_sound {α : Type} {univ : List α} {g : α → List α}
    {d : Int} {root : α} {p q : List (α × Nat) × List α}
    (hstep : CrawlStep univ g d p q)
    (hE : ∀ e ∈ p.1, EntryOK univ g root e)
    (hV : ∀ x ∈ p.2, VisOK univ g d root x) :
    (∀ e ∈ q.1, EntryOK univ g root e) ∧ (∀ x ∈ q.2, VisOK univ g d root x) := by
  cases hstep with
  | dropSeen q1 q2 v c seen h =>
    refine ⟨?_, hV⟩
    intro e he
    rcases List.mem_append.mp he with h1 | h1
    · exact hE e (List.mem_append.mpr (Or.inl h1))
    · exact hE e (List.mem_append.mpr (Or.inr (List.mem_cons_of_mem _ h1)))
  | dropDepth q1 q2 v c seen hv h =>
    refine ⟨?_, hV⟩
    intro e he
    rcases List.mem_append.mp he with h1 | h1
    · exact hE e (List.mem_append.mpr (Or.inl h1))
    · exact hE e (List.mem_append.mpr (Or.inr (List.mem_cons_of_mem _ h1)))
  | claim q1 q2 v c seen hv hgate =>
    push_neg at hv
    obtain ⟨hs, hvu⟩ := hv
    have hok : okDepth d c := by
      intro h0
      by_contra hcon
      push_neg at hcon
      exact hgate ⟨h0, hcon⟩
    have hEv : EntryOK univ g root (v, c) :=
      hE (v, c) (List.mem_append.mpr (Or.inr (List.mem_cons_self _ _)))
    have hpv : AvoidPath univ g [] root v c := entryOK_path hEv hvu
    constructor
    · intro e he
      rcases List.mem_append.mp he with h1 | h1
      · rcases List.mem_append.mp h1 with h2 | h2
        · exact hE e (List.mem_append.mpr (Or.inl h2))
        · exact hE e (List.mem_append.mpr (Or.inr (List.mem_cons_of_mem _ h2)))
      · obtain ⟨w, hw, he2⟩ := List.mem_map.mp h1
        rw [← he2]
        exact Or.inr ⟨v, c, hpv, hw, rfl⟩
    · intro x hx
      rcases List.mem_cons.mp hx with rfl | hx
      · exact ⟨c, hpv, hok⟩
      · exact hV x hx

/-- Soundness along whole runs: the invariants persist. -/
theorem crawlRun_sound {α : Type} {univ : List α} {g : α → List α}
    {d : Int} {root : α} {p q : List (α × Nat) × List α}
    (hrun : CrawlRun univ g d p q)
    (hE : ∀ e ∈ p.1, EntryOK univ g root e)
    (hV : ∀ x ∈ p.2, VisOK univ g d root x) :
    (∀ e ∈ q.1, EntryOK univ g root e) ∧ (∀ x ∈ q.2, VisOK univ g d root x) := by
  induction hrun with
  | refl => exact ⟨hE, hV⟩
  | tail q r h1 h2 ih => exact crawlStep_sound h2 ih.1 ih.2

/-- With no positive depth limit, one crawl step preserves obtainability:
a vertex reachable through unclaimed vertices from some pending invocation
stays reachable, or becomes visited. -/
theorem crawlStep_avail {α : Type} {univ : List α} {g : α → List α}
    {d : Int} {p q : List (α × Nat) × List α} {x : α} (hd : d ≤ 0)
    (hstep : CrawlStep univ g d p q)
    (h : x ∈ p.2 ∨ availQ univ g d p.1 p.2 x) :
    x ∈ q.2 ∨ availQ univ g d q.1 q.2 x := by
  have htriv : ∀ m : Nat, okDepth d m := fun m h0 => absurd h0 (by omega)
  cases hstep with
  | dropSeen q1 q2 v c seen hA =>
    rcases h with hx | ⟨u, c', k, hmem, hpath, hok⟩
    · exact Or.inl hx
    · rcases List.mem_append.mp hmem with h1 | h1
      · exact Or.inr ⟨u, c', k, List.mem_append.mpr (Or.inl h1), hpath, hok⟩
      · rcases List.mem_cons.mp h1 with he | h2
        · injection he with hu hc
          rw [hu] at hpath
          obtain ⟨ha, hb⟩ := avoidPath_start hpath
          rcases hA with hA | hA
          · exact absurd hA hb
          · exact absurd ha hA
        · exact Or.inr ⟨u, c', k, List.mem_append.mpr (Or.inr h2), hpath, hok⟩
  | dropDepth q1 q2 v c seen hv hB =>
    exact absurd hB.1 (by omega)
  | claim q1 q2 v c seen hv hgate =>
    rcases h with hx | ⟨u, c', k, hmem, hpath, hok⟩
    · exact Or.inl (List.mem_cons_of_mem _ hx)
    · rcases avoidPath_extract v hpath with h1 | h2 | ⟨w, k', hw, hp', _⟩
      · rcases List.mem_append.mp hmem with hh | hh
        · exact Or.inr ⟨u, c', k,
            List.mem_append.mpr (Or.inl (List.mem_append.mpr (Or.inl hh))),
            h1, htriv _⟩
        · rcases List.mem_cons.mp hh with he | hh2
          · injection he with hu hc
            rw [hu] at h1
            exact absurd (avoidPath_start h1).2 (by simp)
          · exact Or.inr ⟨u, c', k,
              List.mem_append.mpr (Or.inl (List.mem_append.mpr (Or.inr hh2))),
              h1, htriv _⟩
      · exact Or.inl (by rw [h2]; exact List.mem_cons_self _ _)
      · refine Or.inr ⟨w, c + 1, k', ?_, hp', htriv _⟩
        exact List.mem_append.mpr (Or.inr (List.mem_map.mpr ⟨w, hw, rfl⟩))

/-- Whole-run obtainability for unbounded depth. -/
theorem crawlRun_avail {α : Type} {univ : List α} {g : α → List α}
    {d : Int} {p q : List (α × Nat) × List α} {x : α} (hd : d ≤ 0)
    (hrun : CrawlRun univ g d p q)
    (h : x ∈ p.2 ∨ availQ univ g d p.1 p.2 x) :
    x ∈ q.2 ∨ availQ univ g d q.1 q.2 x := by
  induction hrun with
  | refl => exact h
  | tail q r h1 h2 ih => exact crawlStep_avail hd h2 ih

/-- The root invocation is never lost in one step: if the root is in the
universe, it is visited or its invocation is still pending. -/
theorem crawlStep_rootK {α : Type} {univ : List α} {g : α → List α}
    {d : Int} {root : α} {p q : List (α × Nat) × List α} (hroot : root ∈ univ)
    (hstep : CrawlStep univ g d p q)
    (h : root ∈ p.2 ∨ (root, 0) ∈ p.1) :
    root ∈ q.2 ∨ (root, 0) ∈ q.1 := by
  cases hstep with
  | dropSeen q1 q2 v c seen hA =>
    rcases h with hx | hm
    · exact Or.inl hx
    · rcases List.mem_append.mp hm with h1 | h1
      · exact Or.inr (List.mem_append.mpr (Or.inl h1))
      · rcases List.mem_cons.mp h1 with he | h2
        · injection he with hu hc
          rcases hA with hA | hA
          · exact Or.inl (by rw [hu]; exact hA)
          · exact absurd (hu ▸ hroot) hA
        · exact Or.inr (List.mem_append.mpr (Or.inr h2))
  | dropDepth q1 q2 v c seen hv hB =>
    rcases h with hx | hm
    · exact Or.inl hx
    · rcases List.mem_append.mp hm with h1 | h1
      · exact Or.inr (List.mem_append.mpr (Or.inl h1))
      · rcases List.mem_cons.mp h1 with he | h2
        · exfalso
          injection he with hu hc
          rw [← hc] at hB
          omega
        · exact Or.inr (List.mem_append.mpr (Or.inr h2))
  | claim q1 q2 v c seen hv hgate =>
    rcases h with hx | hm
    · exact Or.inl (List.mem_cons_of_mem _ hx)
    · rcases List.mem_append.mp hm with h1 | h1
      · exact Or.inr (List.mem_append.mpr
          (Or.inl (List.mem_append.mpr (Or.inl h1))))
      · rcases List.mem_cons.mp h1 with he | h2
        · injection he with hu hc
          exact Or.inl (by rw [hu]; exact List.mem_cons_self _ _)
        · exact Or.inr (List.mem_append.mpr
            (Or.inl (List.mem_append.mpr (Or.inr h2))))

/-- Whole-run root persistence. -/
theorem crawlRun_rootK {α : Type} {univ : List α} {g : α → List α}
    {d : Int} {root : α} {p q : List (α × Nat) × List α} (hroot : root ∈ univ)
    (hrun : CrawlRun univ g d p q)
    (h : root ∈ p.2 ∨ (root, 0) ∈ p.1) :
    root ∈ q.2 ∨ (root, 0) ∈ q.1 := by
  induction hrun with
  | refl => exact h
  | tail q r h1 h2 ih => exact crawlStep_rootK hroot h2 ih

/-- C6 (amended): over the nondeterministic dispatch model of a full crawl
(any pending invocation may run next — the pool guarantees no order), with
the depth limit normalised as the source does: (1) in every run, whatever
the dispatch order, each visited node is reachable from the root within
the depth budget — for a positive limit `N`, within `N - 1` edges (a path
of `k < N` edges), never beyond; (2) a depth limit `≤ 0` means unbounded
crawling: a completed run visits exactly the nodes reachable from the
root, in every dispatch order; (3) depth `= 1` visits only the root, in
every dispatch order; (4) for positive limits, which in-budget nodes are
visited may depend on the dispatch order: with depth `3` on the graph
`0 → {1, 2}, 1 → 2, 2 → 3`, a completed run exists that never visits
node `3` although it lies within `2 = N - 1` edges of the root; (5) each
kid invocation carries its parent's depth counter plus one. -/
theorem crawl_depth_visits :
    (∀ (α : Type) (univ : List α) (g : α → List α) (d : Int) (root : α)
        (p : List (α × Nat) × List α),
      CrawlRun univ g (normalizeDepth d) ([(root, 0)], []) p →
      ∀ x ∈ p.2, ∃ k, AvoidPath univ g [] root x k ∧
        okDepth (normalizeDepth d) k) ∧
    (∀ (α : Type) (univ : List α) (g : α → List α) (d : Int) (root : α)
        (seen : List α), d ≤ 0 →
      CrawlRun univ g (normalizeDepth d) ([(root, 0)], []) ([], seen) →
      ∀ x, x ∈ seen ↔ ∃ k, AvoidPath univ g [] root x k) ∧
    (∀ (α : Type) (univ : List α) (g : α → List α) (root : α)
        (seen : List α),
      CrawlRun univ g (normalizeDepth 1) ([(root, 0)], []) ([], seen) →
      ∀ x, x ∈ seen ↔ x = root ∧ root ∈ univ) ∧
    (CrawlRun [0, 1, 2, 3]
        (fun v => if v = 0 then [1, 2] else if v = 1 then [2]
          else if v = 2 then [3] else []) (normalizeDepth 3)
        ([(0, 0)], []) ([], [2, 1, 0]) ∧
      (3 : Nat) ∉ ([2, 1, 0] : List Nat) ∧
      AvoidPath [0, 1, 2, 3]
        (fun v => if v = 0 then [1, 2] else if v = 1 then [2]
          else if v = 2 then [3] else []) [] 0 3 2 ∧
      okDepth (normalizeDepth 3) 2) ∧
    (∀ (pc : PageCrawler) (kidPath kidHost : String),
      (mkKidCrawler pc kidPath kidHost).current = pc.current + 1) := by
  refine ⟨?_, ?_, ?_, ?_, fun pc kidPath kidHost => rfl⟩
  · intro α univ g d root p hrun x hx
    have hE : ∀ e ∈ ([(root, 0)] : List (α × Nat)), EntryOK univ g root e := by
      intro e he
      rw [List.mem_singleton.mp he]
      exact Or.inl ⟨rfl, rfl⟩
    have hV : ∀ y ∈ ([] : List α), VisOK univ g (normalizeDepth d) root y :=
      fun y hy => absurd hy (List.not_mem_nil y)
    exact (crawlRun_sound hrun hE hV).2 x hx
  · intro α univ g d root seen hd hrun x
    have hd' : normalizeDepth d ≤ 0 := by
      unfold normalizeDepth
      split <;> omega
    constructor
    · intro hx
      have hE : ∀ e ∈ ([(root, 0)] : List (α × Nat)), EntryOK univ g root e := by
        intro e he
        rw [List.mem_singleton.mp he]
        exact Or.inl ⟨rfl, rfl⟩
      have hV : ∀ y ∈ ([] : List α), VisOK univ g (normalizeDepth d) root y :=
        fun y hy => absurd hy (List.not_mem_nil y)
      obtain ⟨k, hp, _⟩ := (crawlRun_sound hrun hE hV).2 x hx
      exact ⟨k, hp⟩
    · rintro ⟨k, hp⟩
      have hinit : x ∈ ([] : List α) ∨
          availQ univ g (normalizeDepth d) [(root, 0)] [] x :=
        Or.inr ⟨root, 0, k, List.mem_singleton_self _, hp,
          fun h0 => absurd h0 (by omega)⟩
      rcases crawlRun_avail hd' hrun hinit with hx | ⟨u, c, k', hmem, _, _⟩
      · exact hx
      · exact absurd hmem (List.not_mem_nil _)
  · intro α univ g root seen hrun x
    have h1norm : normalizeDepth 1 = 1 := by
      unfold normalizeDepth
      norm_num
    constructor
    · intro hx
      have hE : ∀ e ∈ ([(root, 0)] : List (α × Nat)), EntryOK univ g root e := by
        intro e he
        rw [List.mem_singleton.mp he]
        exact Or.inl ⟨rfl, rfl⟩
      have hV : ∀ y ∈ ([] : List α), VisOK univ g (normalizeDepth 1) root y :=
        fun y hy => absurd hy (List.not_mem_nil y)
      obtain ⟨k, hp, hok⟩ := (crawlRun_sound hrun hE hV).2 x hx
      rw [h1norm] at hok
      have hk : k = 0 := by
        have := hok (by norm_num)
        omega
      rw [hk] at hp
      obtain ⟨ha, hb, _⟩ := avoidPath_zero.mp hp
      exact ⟨ha, hb⟩
    · rintro ⟨rfl, hroot⟩
      rcases crawlRun_rootK hroot hrun
          (Or.inr (List.mem_singleton_self _)) with hx | hm
      · exact hx
      · exact absurd hm (List.not_mem_nil _)
  · refine ⟨?_, by decide, ?_, by intro h0; decide⟩
    · have s1 : CrawlStep [0, 1, 2, 3]
          (fun v => if v = 0 then [1, 2] else if v = 1 then [2]
            else if v = 2 then [3] else []) (normalizeDepth 3)
          ([(0, 0)], []) ([(1, 1), (2, 1)], [0]) :=
        .claim [] [] 0 0 [] (by decide) (by decide)
      have s2 : CrawlStep [0, 1, 2, 3]
          (fun v => if v = 0 then [1, 2] else if v = 1 then [2]
            else if v = 2 then [3] else []) (normalizeDepth 3)
          ([(1, 1), (2, 1)], [0]) ([(2, 1), (2, 2)], [1, 0]) :=
        .claim [] [(2, 1)] 1 1 [0] (by decide) (by decide)
      have s3 : CrawlStep [0, 1, 2, 3]
          (fun v => if v = 0 then [1, 2] else if v = 1 then [2]
            else if v = 2 then [3] else []) (normalizeDepth 3)
          ([(2, 1), (2, 2)], [1, 0]) ([(2, 1), (3, 3)], [2, 1, 0]) :=
        .claim [(2, 1)] [] 2 2 [1, 0] (by decide) (by decide)
      have s4 : CrawlStep [0, 1, 2, 3]
          (fun v => if v = 0 then [1, 2] else if v = 1 then [2]
            else if v = 2 then [3] else []) (normalizeDepth 3)
          ([(2, 1), (3, 3)], [2, 1, 0]) ([(3, 3)], [2, 1, 0]) :=
        .dropSeen [] [(3, 3)] 2 1 [2, 1, 0] (by decide)
      have s5 : CrawlStep [0, 1, 2, 3]
          (fun v => if v = 0 then [1, 2] else if v = 1 then [2]
            else if v = 2 then [3] else []) (normalizeDepth 3)
          ([(3, 3)], [2, 1, 0]) ([], [2, 1, 0]) :=
        .dropDepth [] [] 3 3 [2, 1, 0] (by decide) (by decide)
      exact .tail _ _ _ (.tail _ _ _ (.tail _ _ _ (.tail _ _ _
        (.tail _ _ _ (.refl _) s1) s2) s3) s4) s5
    · exact .cons 0 2 3 1 (by decide) (by decide) (by decide)
        (.cons 2 3 3 0 (by decide) (by decide) (by decide)
          (.nil 3 (by decide) (by decide)))

/-- Witness for C6's amended theorem on the two-vertex chain `0 → 1`:
unbounded depth (`-1`) yields a completed run visiting both vertices, and
depth `1` yields a completed run visiting only the root. -/
theorem crawl_depth_visits_witness :
    ((-1 : Int) ≤ 0 ∧
      CrawlRun [0, 1] (fun v => if v = 0 then [1] else [])
        (normalizeDepth (-1)) ([(0, 0)], []) ([], [1, 0]) ∧
      ((1 : Nat) ∈ ([1, 0] : List Nat) ↔
        ∃ k, AvoidPath [0, 1] (fun v => if v = 0 then [1] else []) [] 0 1 k)) ∧
    (CrawlRun [0, 1] (fun v => if v = 0 then [1] else [])
        (normalizeDepth 1) ([(0, 0)], []) ([], [0]) ∧
      ((1 : Nat) ∈ ([0] : List Nat) ↔ 1 = 0 ∧ 0 ∈ ([0, 1] : List Nat))) := by
  have t1 : CrawlStep [0, 1] (fun v => if v = 0 then [1] else [])
      (normalizeDepth (-1)) ([(0, 0)], []) ([(1, 1)], [0]) :=
    .claim [] [] 0 0 [] (by decide) (by decide)
  have t2 : CrawlStep [0, 1] (fun v => if v = 0 then [1] else [])
      (normalizeDepth (-1)) ([(1, 1)], [0]) ([], [1, 0]) :=
    .claim [] [] 1 1 [0] (by decide) (by decide)
  have run1 : CrawlRun [0, 1] (fun v => if v = 0 then [1] else [])
      (normalizeDepth (-1)) ([(0, 0)], []) ([], [1, 0]) :=
    .tail _ _ _ (.tail _ _ _ (.refl _) t1) t2
  have u1 : CrawlStep [0, 1] (fun v => if v = 0 then [1] else [])
      (normalizeDepth 1) ([(0, 0)], []) ([(1, 1)], [0]) :=
    .claim [] [] 0 0 [] (by decide) (by decide)
  have u2 : CrawlStep [0, 1] (fun v => if v = 0 then [1] else [])
      (normalizeDepth 1) ([(1, 1)], [0]) ([], [0]) :=
    .dropDepth [] [] 1 1 [0] (by decide) (by decide)
  have run2 : CrawlRun [0, 1] (fun v => if v = 0 then [1] else [])
      (normalizeDepth 1) ([(0, 0)], []) ([], [0]) :=
    .tail _ _ _ (.tail _ _ _ (.refl _) u1) u2
  exact ⟨⟨by norm_num, run1,
      crawl_depth_visits.2.1 Nat [0, 1] (fun v => if v = 0 then [1] else [])
        (-1) 0 [1, 0] (by norm_num) run1 1⟩,
    ⟨run2,
      crawl_depth_visits.2.2.1 Nat [0, 1] (fun v => if v = 0 then [1] else [])
        0 [0] run2 1⟩⟩

/-- C6 counterexample: a complete depth-1 crawl run on the two-vertex
chain `0 → 1` visits only the root: vertex 1 lies within `N = 1` edges of
the root, yet the run never visits it, so "depth = N visits exactly the
nodes within N edges" is false as stated (its own "depth = 1 visits only
the root" clause already contradicts it). -/
theorem crawl_depth_off_by_one :
    CrawlRun [0, 1] (fun v => if v = 0 then [1] else [])
      (normalizeDepth 1) ([(0, 0)], []) ([], [0]) ∧
    (1 : Nat) ∉ ([0] : List Nat) ∧
    AvoidPath [0, 1] (fun v => if v = 0 then [1] else []) [] 0 1 1 := by
  refine ⟨?_, by decide, ?_⟩
  · have s1 : CrawlStep [0, 1] (fun v => if v = 0 then [1] else [])
        (normalizeDepth 1) ([(0, 0)], []) ([(1, 1)], [0]) :=
      .claim [] [] 0 0 [] (by decide) (by decide)
    have s2 : CrawlStep [0, 1] (fun v => if v = 0 then [1] else [])
        (normalizeDepth 1) ([(1, 1)], [0]) ([], [0]) :=
      .dropDepth [] [] 1 1 [0] (by decide) (by decide)
    exact .tail _ _ _ (.tail _ _ _ (.refl _) s1) s2
  · exact .cons 0 1 1 0 (by decide) (by decide) (by decide)
      (.nil 1 (by decide) (by decide))

end SiteCrawler
